import Mathlib

/-!
# Verification of the SG-tree core (`src/src/sg_tree/sg_tree.h`)

Shallow embedding of the scapegoat-style cover tree of `class SGTree`.

Modelling conventions:
* `scalar` (a floating-point type in the source) is modelled as `ℚ`.
* The point type is abstract (the source uses an Eigen vector); functions that
  measure distances receive an explicit `dist : P → P → ℚ` argument, the
  embedding of `(p - pp).norm()`.  The concrete one-dimensional instance
  `ratDist a b = |a - b|` (the L2 norm in dimension 1) is used for witnesses.
* `std::vector<Node*> children` is modelled as `List (SGNode P)`; pointer
  mutation becomes functional update.
* Locks and atomics are sequentialized; `ext_prop`, `D`, `id_valid`,
  `truncate_level` and the per-node mutex are omitted (no claim mentions them).
* Method bodies that are only declared in the header (`compute_pow_table`,
  `calc_maxdist`, `insert`, `kNearestNeighbours`) are modelled from the spec;
  each such definition carries a doc comment saying so.
-/

/-- Scalar of the source (`scalar`) modelled as `ℚ`. -/
abbrev Scalar := ℚ

/-- Modelled from the spec: `compute_pow_table` (declared at sg_tree.h:156, body
absent from `src/`): "Precompute `powdict[i] = base^(i − BIAS)` for
`i ∈ [0, 2·BIAS]` where `BIAS` is large enough ... (the reference uses 1024)."
The array is modelled as a total function on integer indices. -/
def powdict (base : Scalar) (i : ℤ) : Scalar := base ^ (i - 1024)

/-- `SGTree::Node` (sg_tree.h:45-146): point `_p`, `level`, `maxdistUB`,
mutable `ID`, external `UID`, and the `children` vector. -/
inductive SGNode (P : Type) where
  | mk (point : P) (level : ℤ) (maxdistUB : Scalar) (ID : ℕ) (UID : ℕ)
      (children : List (SGNode P))

variable {P : Type}

/-- Field `_p` of a node. -/
def SGNode.point : SGNode P → P
  | .mk pt _ _ _ _ _ => pt

/-- Field `level` of a node. -/
def SGNode.level : SGNode P → ℤ
  | .mk _ lvl _ _ _ _ => lvl

/-- Field `maxdistUB` of a node. -/
def SGNode.maxdistUB : SGNode P → Scalar
  | .mk _ _ ub _ _ _ => ub

/-- Field `ID` of a node (an `unsigned`, modelled as `ℕ`). -/
def SGNode.ID : SGNode P → ℕ
  | .mk _ _ _ i _ _ => i

/-- Field `UID` of a node. -/
def SGNode.UID : SGNode P → ℕ
  | .mk _ _ _ _ u _ => u

/-- Field `children` of a node. -/
def SGNode.children : SGNode P → List (SGNode P)
  | .mk _ _ _ _ _ cs => cs

/-- `SGTree::Node::covdist` (sg_tree.h:62-65): `return powdict[level + 1024];`. -/
def SGNode.covdist (base : Scalar) (n : SGNode P) : Scalar :=
  powdict base (n.level + 1024)

/-- `SGTree::Node::sepdist` (sg_tree.h:66-69): `return powdict[level + 1023];`. -/
def SGNode.sepdist (base : Scalar) (n : SGNode P) : Scalar :=
  powdict base (n.level + 1023)

/-- The C++ conversion from `int` to 32-bit `unsigned` used when `setChild`
stores `int new_id` into the `unsigned ID` field (sg_tree.h:94): reduction
modulo `2^32`. -/
def toUnsigned (i : ℤ) : ℕ := (i % (2 ^ 32 : ℤ)).toNat

/-- `SGTree::Node::setChild` (sg_tree.h:86-98): allocates a node with point
`pIns`, level `level - 1`, `maxdistUB = 0`, `ID = new_id` (an `int` stored into
an `unsigned`), `UID = UID`, appends it to `children` and returns it.  The
functional model returns (updated parent, new child). -/
def SGNode.setChild (n : SGNode P) (pIns : P) (UID : ℕ) (new_id : ℤ) :
    SGNode P × SGNode P :=
  match n with
  | .mk pt lvl ub i u cs =>
    let temp : SGNode P := .mk pIns (lvl - 1) 0 (toUnsigned new_id) UID []
    (.mk pt lvl ub i u (cs ++ [temp]), temp)

/-- `setChild` called with the default argument `new_id = -1` (sg_tree.h:88),
i.e. the `add_child(point, UID)` interface of the spec. -/
def SGNode.addChild (n : SGNode P) (pIns : P) (UID : ℕ) : SGNode P × SGNode P :=
  n.setChild pIns UID (-1)

/-- `SGTree::Node::erase(size_t pos)` (sg_tree.h:101-105):
`children[pos] = children.back(); children.pop_back();` — a swap-remove,
modelled on an arbitrary list. -/
def swapRemove {α : Type} (l : List α) (pos : ℕ) : List α :=
  match l.getLast? with
  | none => l
  | some z => (l.set pos z).dropLast

/-- `erase` acting on a node's children vector. -/
def SGNode.erase (n : SGNode P) (pos : ℕ) : SGNode P :=
  match n with
  | .mk pt lvl ub i u cs => .mk pt lvl ub i u (swapRemove cs pos)

/-- `SGTree` container state (sg_tree.h:148-162): root pointer (possibly null),
`base`, the scale extrema, and the point count `N`. -/
structure SGTree (P : Type) where
  root : Option (SGNode P)
  base : Scalar
  min_scale : ℤ
  max_scale : ℤ
  N : ℕ

/-- `SGTree::remove` (sg_tree.h:198): `{return false;}` — a no-op returning
`false`; the model returns the unchanged tree together with the result. -/
def SGTree.remove (t : SGTree P) (_p : P) : SGTree P × Bool := (t, false)

/-- The one-dimensional instance of the point type: `dist a b = |a - b|`,
the L2 norm of `a - b` in dimension 1 (sg_tree.h:70-76).  Used for concrete
witnesses and counterexamples. -/
def ratDist (a b : ℚ) : ℚ := |a - b|

mutual
/-- Modelled from the spec: `calc_maxdist` (declared at sg_tree.h:232, body
absent from `src/`): "post-order traversal;
`n.maxdistUB = max over children c of ( dist(n, c) + c.maxdistUB )`.
Leaves have `maxdistUB = 0`." -/
def calc_maxdist (dist : P → P → Scalar) : SGNode P → SGNode P
  | .mk pt lvl _ i u cs =>
    let cs' := calc_maxdistList dist cs
    .mk pt lvl ((cs'.map (fun c => dist pt c.point + c.maxdistUB)).foldr max 0)
      i u cs'

/-- `calc_maxdist` applied to each tree of a children vector. -/
def calc_maxdistList (dist : P → P → Scalar) : List (SGNode P) → List (SGNode P)
  | [] => []
  | c :: cs => calc_maxdist dist c :: calc_maxdistList dist cs
end

mutual
/-- The proper descendants of a node: its children and their descendants. -/
def SGNode.descendants : SGNode P → List (SGNode P)
  | .mk _ _ _ _ _ cs => descList cs

/-- All nodes of a forest: each root together with its descendants. -/
def descList : List (SGNode P) → List (SGNode P)
  | [] => []
  | c :: cs => c :: (SGNode.descendants c ++ descList cs)
end

/-- All nodes of the subtree rooted at `n` (preorder). -/
def SGNode.allNodes (n : SGNode P) : List (SGNode P) := n :: n.descendants

mutual
/-- The recursive insert helper `SGTree::insert(Node* current, p, UID,
curr_dist)` (declared at sg_tree.h:165, body absent from `src/`).  Modelled
from the spec (§4.D): a zero `curr_dist` observed on the descent aborts (the
node is returned unchanged with `none`); otherwise descend into the first
candidate child — `c` is a candidate iff `dist(c, p) ≤ covdist(L − 1)`, i.e.
`powdict[(L-1) + 1024]` — and if no candidate exists attach `p` via `setChild`
(with the default `new_id = -1`), returning the level `L - 1` of the new
child. -/
def insertAt (base : Scalar) (dist : P → P → Scalar) (p : P) (uid : ℕ) :
    SGNode P → Scalar → SGNode P × Option ℤ
  | .mk pt lvl ub i u cs, currDist =>
    if currDist = 0 then (.mk pt lvl ub i u cs, none)
    else
      match insertChildren base dist p uid lvl cs with
      | some r => (.mk pt lvl ub i u r.1, r.2)
      | none =>
        (((SGNode.mk pt lvl ub i u cs).setChild p uid (-1)).1, some (lvl - 1))

/-- Scan the children in insertion order for the first candidate and recurse
into it; `none` when no candidate exists. -/
def insertChildren (base : Scalar) (dist : P → P → Scalar) (p : P) (uid : ℕ)
    (lvl : ℤ) : List (SGNode P) → Option (List (SGNode P) × Option ℤ)
  | [] => none
  | c :: cs =>
    if dist c.point p ≤ powdict base (lvl - 1 + 1024) then
      let r := insertAt base dist p uid c (dist c.point p)
      some (r.1 :: cs, r.2)
    else
      match insertChildren base dist p uid lvl cs with
      | some r => some (c :: r.1, r.2)
      | none => none
end

mutual
/-- Whether the descent of `insertAt` from a node (entered at distance
`currDist`) encounters a node at distance exactly zero from `p`. -/
def zeroHitNode (base : Scalar) (dist : P → P → Scalar) (p : P) :
    SGNode P → Scalar → Bool
  | .mk _ lvl _ _ _ cs, currDist =>
    if currDist = 0 then true else zeroHitChildren base dist p lvl cs

/-- The children part of `zeroHitNode`, mirroring `insertChildren`. -/
def zeroHitChildren (base : Scalar) (dist : P → P → Scalar) (p : P) (lvl : ℤ) :
    List (SGNode P) → Bool
  | [] => false
  | c :: cs =>
    if dist c.point p ≤ powdict base (lvl - 1 + 1024) then
      zeroHitNode base dist p c (dist c.point p)
    else zeroHitChildren base dist p lvl cs
end

/-- The root-promotion loop of `SGTree::insert` (spec §4.D step 3): "while
`d0 > covdist(root.level)` ... allocate a new root at level `root.level + 1`".
Returns the number of iterations; `fuel` bounds them (the C++ loop needs no
bound since `base > 1` makes `base^level` unbounded). -/
def promoteLoop (base d0 : Scalar) : ℤ → ℕ → ℕ
  | _, 0 => 0
  | lvl, fuel + 1 =>
    if d0 ≤ powdict base (lvl + 1024) then 0
    else promoteLoop base d0 (lvl + 1) fuel + 1

/-- Fuel over-approximating the promotion count: for `base > 1`, Bernoulli's
inequality gives `base^(level + n) ≥ 1 + ((level + n) : ℤ)·(base - 1)` once the
exponent is non-negative, so `(d0 - 1)/(base - 1) + |level| + 2` iterations
always suffice. -/
def promoteFuel (base d0 : Scalar) (lvl : ℤ) : ℕ :=
  ((d0 - 1) / (base - 1)).ceil.toNat + lvl.natAbs + 2

/-- The chain of new roots produced by `k` promotions: each new root carries
the old root's point one level higher, with the previous root as its only
child (spec §4.D step 3); `maxdistUB`, `ID`, `UID` of the new roots are not
specified by the spec and no claim depends on them. -/
def promoteChain (r : SGNode P) : ℕ → SGNode P
  | 0 => r
  | k + 1 =>
    let r' := promoteChain r k
    .mk r'.point (r'.level + 1) 0 (toUnsigned (-1)) r'.UID [r']

/-- `SGTree::insert(p, UID)` (declared at sg_tree.h:195, body absent from
`src/`).  Modelled from the spec (§4.D): an empty tree seeds the root at level
0 with `min_scale = max_scale = 0`, `N = 1`; otherwise the root is promoted
while `d0 > covdist(root.level)` (updating `max_scale`), then the recursive
descent runs; attachment updates `min_scale` and `N` and yields `true`; a zero
distance on the descent yields `false` with no attachment. -/
def SGTree.insert (dist : P → P → Scalar) (t : SGTree P) (p : P) (uid : ℕ) :
    SGTree P × Bool :=
  match t.root with
  | none =>
    (⟨some (.mk p 0 0 (toUnsigned (-1)) uid []), t.base, 0, 0, 1⟩, true)
  | some r =>
    let d0 := dist r.point p
    let cnt := promoteLoop t.base d0 r.level (promoteFuel t.base d0 r.level)
    let r' := promoteChain r cnt
    let ms := if cnt = 0 then t.max_scale else max t.max_scale r'.level
    match insertAt t.base dist p uid r' d0 with
    | (r'', some lvl) =>
      (⟨some r'', t.base, min t.min_scale lvl, ms, t.N + 1⟩, true)
    | (r'', none) =>
      (⟨some r'', t.base, t.min_scale, ms, t.N⟩, false)

/-- Whether the insertion descent for `p` — run, as in the source, on the tree
as it stands after root promotion — encounters a node at distance exactly
zero. -/
def SGTree.zeroHit (dist : P → P → Scalar) (t : SGTree P) (p : P) : Bool :=
  match t.root with
  | none => false
  | some r =>
    let d0 := dist r.point p
    zeroHitNode t.base dist p
      (promoteChain r (promoteLoop t.base d0 r.level
        (promoteFuel t.base d0 r.level))) d0

/-- Sorted insertion into the current top-k candidate list, ascending by
distance and stable (a new pair goes after existing pairs at equal distance) —
the functional counterpart of the spec's bounded max-heap. -/
def insertB {α : Type} (x : α × Scalar) : List (α × Scalar) → List (α × Scalar)
  | [] => [x]
  | y :: ys => if x.2 < y.2 then x :: y :: ys else y :: insertB x ys

/-- Stream a candidate list through the bounded top-k structure. -/
def knnFold {α : Type} (k : ℕ) (xs : List (α × Scalar)) : List (α × Scalar) :=
  xs.foldl (fun acc x => (insertB x acc).take k) []

/-- Modelled from the spec: `SGTree::kNearestNeighbours(p, k)` (declared at
sg_tree.h:205, body absent from `src/`): "maintain the current top-k as a
max-heap of size ≤ k.  Threshold = heap's largest distance once the heap is
full, else +∞.  Result sorted ascending by distance."  The model streams every
node of the tree through the bounded top-k structure (the branch-and-bound
frame only prunes nodes that cannot enter the result). -/
def SGTree.kNearestNeighbours (dist : P → P → Scalar) (t : SGTree P) (p : P)
    (k : ℕ) : List (SGNode P × Scalar) :=
  match t.root with
  | none => []
  | some r => knnFold k ((r.allNodes).map (fun n => (n, dist n.point p)))

/- ======================  theorems  ====================== -/

/-- Claim C1 counterexample: at level 0 with `base = 2` the accessor returns
`powdict[0 + 1024] = base^0 = 1`, not `base^(0+1) = 2`: the source reads
`powdict[level + BIAS]`, not `powdict[level + BIAS + 1]`. -/
theorem covdist_counterexample :
    SGNode.covdist 2 (SGNode.mk (0 : ℚ) 0 0 0 0 []) ≠
      (2 : Scalar) ^ ((0 : ℤ) + 1) := by
  simp [SGNode.covdist, SGNode.level, powdict]

/-- Claim C1 (amended): for every node at level `L`, `covdist` returns the
biased lookup `powdict[L + BIAS]` (with `BIAS = 1024`), which equals `base^L`
— not `powdict[L + BIAS + 1] = base^(L+1)` as claimed. -/
theorem covdist_spec (base : Scalar) (n : SGNode P) :
    n.covdist base = powdict base (n.level + 1024) ∧
      n.covdist base = base ^ n.level := by
  refine ⟨rfl, ?_⟩
  simp [SGNode.covdist, powdict]

/-- Claim C2 counterexample: at level 1 with `base = 2` the accessor returns
`powdict[1 + 1023] = base^0 = 1`, not `base^1 = 2`: the source reads
`powdict[level + BIAS - 1]`, not `powdict[level + BIAS]`. -/
theorem sepdist_counterexample :
    SGNode.sepdist 2 (SGNode.mk (0 : ℚ) 1 0 0 0 []) ≠
      (2 : Scalar) ^ ((1 : ℤ)) := by
  simp [SGNode.sepdist, SGNode.level, powdict]

/-- Claim C2 (amended): for every node at level `L`, `sepdist` returns the
biased lookup `powdict[L + BIAS - 1]` (with `BIAS = 1024`), which equals
`base^(L-1)` — not `powdict[L + BIAS] = base^L` as claimed. -/
theorem sepdist_spec (base : Scalar) (n : SGNode P) :
    n.sepdist base = powdict base (n.level + 1024 - 1) ∧
      n.sepdist base = base ^ (n.level - 1) := by
  constructor
  · show powdict base (n.level + 1023) = powdict base (n.level + 1024 - 1)
    have h : n.level + 1024 - 1 = n.level + 1023 := by ring
    rw [h]
  · show powdict base (n.level + 1023) = base ^ (n.level - 1)
    unfold powdict
    congr 1
    ring

/-- Claim C6: `remove(p)` returns `false` and leaves the entire tree state
unchanged — root, base, scales and `N` are all untouched. -/
theorem remove_noop (t : SGTree P) (p : P) : t.remove p = (t, false) := rfl

/-- Claim C7: `setChild` (the `add_child` interface) creates a new node with
point `pIns`, level one below its parent, `maxdistUB = 0`, the given UID and
no children; appends it at the end of the parent's children, leaving the
parent's point, level, `maxdistUB`, IDs and previously existing children
unchanged; and returns that new node. -/
theorem setChild_spec (n : SGNode P) (pIns : P) (uid : ℕ) (new_id : ℤ) :
    ((n.setChild pIns uid new_id).2).point = pIns ∧
    ((n.setChild pIns uid new_id).2).level = n.level - 1 ∧
    ((n.setChild pIns uid new_id).2).maxdistUB = 0 ∧
    ((n.setChild pIns uid new_id).2).UID = uid ∧
    ((n.setChild pIns uid new_id).2).children = [] ∧
    ((n.setChild pIns uid new_id).1).point = n.point ∧
    ((n.setChild pIns uid new_id).1).level = n.level ∧
    ((n.setChild pIns uid new_id).1).maxdistUB = n.maxdistUB ∧
    ((n.setChild pIns uid new_id).1).ID = n.ID ∧
    ((n.setChild pIns uid new_id).1).UID = n.UID ∧
    ((n.setChild pIns uid new_id).1).children =
      n.children ++ [(n.setChild pIns uid new_id).2] := by
  cases n
  simp [SGNode.setChild, SGNode.point, SGNode.level, SGNode.maxdistUB,
    SGNode.ID, SGNode.UID, SGNode.children]

/-- Claim C10: when `setChild` is called without an explicit `new_id` (the
default `-1`, as in `add_child`), the value stored in the `unsigned ID` field
is `2^32 - 1 = 4294967295`, not a sequence number. -/
theorem setChild_default_id (n : SGNode P) (pIns : P) (uid : ℕ) :
    ((n.addChild pIns uid).2).ID = 4294967295 := by
  cases n
  simp [SGNode.addChild, SGNode.setChild, SGNode.ID, toUnsigned]

/-- Swap-remove keeps exactly one element fewer. -/
theorem swapRemove_length {α : Type} (l : List α) (pos : ℕ) (h : pos < l.length) :
    (swapRemove l pos).length = l.length - 1 := by
  cases l with
  | nil => simp at h
  | cons x xs =>
    have hne : (x :: xs : List α) ≠ [] := by simp
    have hz := List.getLast?_eq_getLast (x :: xs) hne
    simp [swapRemove, hz]

/-- Swap-remove at a valid position is a permutation of deleting exactly the
element at that position. -/
theorem swapRemove_perm {α : Type} :
    ∀ (l : List α) (pos : ℕ), pos < l.length →
      (swapRemove l pos).Perm (l.eraseIdx pos) := by
  intro l
  induction l with
  | nil => intro pos h; simp at h
  | cons x xs ih =>
    intro pos h
    cases pos with
    | zero =>
      cases xs with
      | nil => simp [swapRemove]
      | cons y ys =>
        have hne : (y :: ys : List α) ≠ [] := by simp
        have hz : (x :: y :: ys).getLast? = some ((y :: ys).getLast hne) := by
          rw [List.getLast?_cons_cons]
          exact List.getLast?_eq_getLast _ hne
        simp only [swapRemove, hz, List.set_cons_zero, List.dropLast_cons₂,
          List.eraseIdx_cons_zero]
        have heq := List.dropLast_append_getLast hne
        have hp := List.perm_append_singleton ((y :: ys).getLast hne)
          ((y :: ys).dropLast)
        rw [heq] at hp
        exact hp.symm
    | succ p =>
      have hplt : p < xs.length := by simpa using h
      cases xs with
      | nil => simp at hplt
      | cons y ys =>
        have hne : (y :: ys : List α) ≠ [] := by simp
        have hz : (y :: ys).getLast? = some ((y :: ys).getLast hne) :=
          List.getLast?_eq_getLast _ hne
        have hz' : (x :: y :: ys).getLast? = some ((y :: ys).getLast hne) := by
          rw [List.getLast?_cons_cons]; exact hz
        have hsetne : ((y :: ys).set p ((y :: ys).getLast hne)) ≠ [] := by
          intro hEq
          have := congrArg List.length hEq
          simp at this
        have hswap : swapRemove (y :: ys) p =
            ((y :: ys).set p ((y :: ys).getLast hne)).dropLast := by
          simp [swapRemove, hz]
        simp only [swapRemove, hz', List.set_cons_succ, List.eraseIdx_cons_succ]
        rw [List.dropLast_cons_of_ne_nil hsetne, ← hswap]
        exact List.Perm.cons x (ih p hplt)

/-- Claim C8: for a node with a non-empty children vector and a valid position,
`erase(pos)` swap-removes: the vector shrinks by one and the remaining children
are, as a multiset, exactly the original children minus the one at `pos` (no
child duplicated or lost, including at the last position); the order of the
remaining children is not in general preserved (concrete instance:
swap-removing position 0 from `[10, 20, 30]` gives `[30, 20]`, not `[20, 30]`). -/
theorem erase_spec :
    (∀ (Q : Type) (n : SGNode Q) (pos : ℕ), pos < n.children.length →
      ((n.erase pos).children.length = n.children.length - 1 ∧
        ((n.erase pos).children).Perm (n.children.eraseIdx pos))) ∧
    swapRemove [10, 20, 30] 0 = ([30, 20] : List ℕ) ∧
    ([30, 20] : List ℕ) ≠ ([10, 20, 30] : List ℕ).eraseIdx 0 := by
  refine ⟨?_, by decide, by decide⟩
  intro Q n pos h
  cases n with
  | mk pt lvl ub i u cs =>
    simp only [SGNode.children] at h
    constructor
    · simp only [SGNode.erase, SGNode.children]
      exact swapRemove_length cs pos h
    · simp only [SGNode.erase, SGNode.children]
      exact swapRemove_perm cs pos h

/-- Witness for C8 at a concrete node with three children and `pos = 0`. -/
theorem erase_spec_witness :
    (0 : ℕ) <
      (SGNode.mk (0 : ℚ) 0 0 0 0
        [SGNode.mk 1 (-1) 0 0 1 [], SGNode.mk 2 (-1) 0 0 2 [],
         SGNode.mk 3 (-1) 0 0 3 []]).children.length ∧
    (((SGNode.mk (0 : ℚ) 0 0 0 0
        [SGNode.mk 1 (-1) 0 0 1 [], SGNode.mk 2 (-1) 0 0 2 [],
         SGNode.mk 3 (-1) 0 0 3 []]).erase 0).children.length =
      (SGNode.mk (0 : ℚ) 0 0 0 0
        [SGNode.mk 1 (-1) 0 0 1 [], SGNode.mk 2 (-1) 0 0 2 [],
         SGNode.mk 3 (-1) 0 0 3 []]).children.length - 1 ∧
      (((SGNode.mk (0 : ℚ) 0 0 0 0
        [SGNode.mk 1 (-1) 0 0 1 [], SGNode.mk 2 (-1) 0 0 2 [],
         SGNode.mk 3 (-1) 0 0 3 []]).erase 0).children).Perm
        ((SGNode.mk (0 : ℚ) 0 0 0 0
        [SGNode.mk 1 (-1) 0 0 1 [], SGNode.mk 2 (-1) 0 0 2 [],
         SGNode.mk 3 (-1) 0 0 3 []]).children.eraseIdx 0)) :=
  ⟨by simp [SGNode.children], erase_spec.1 ℚ _ 0 (by simp [SGNode.children])⟩

theorem point_calc (dist : P → P → Scalar) (n : SGNode P) :
    (calc_maxdist dist n).point = n.point := by
  cases n with
  | mk pt lvl ub i u cs => simp [calc_maxdist, SGNode.point]

theorem foldr_max_nonneg (l : List Scalar) : 0 ≤ l.foldr max 0 := by
  induction l with
  | nil => simp
  | cons x xs ih =>
    simp only [List.foldr_cons]
    exact le_max_of_le_right ih

theorem le_foldr_max {l : List Scalar} {a : Scalar} (h : a ∈ l) :
    a ≤ l.foldr max 0 := by
  induction l with
  | nil => simp at h
  | cons x xs ih =>
    rcases List.mem_cons.mp h with h | h
    · subst h; exact le_max_left _ _
    · exact le_trans (ih h) (le_max_right _ _)

theorem calcUB_nonneg (dist : P → P → Scalar) (n : SGNode P) :
    0 ≤ (calc_maxdist dist n).maxdistUB := by
  cases n with
  | mk pt lvl ub i u cs =>
    simp only [calc_maxdist, SGNode.maxdistUB]
    exact foldr_max_nonneg _

theorem calc_maxdistList_eq_map (dist : P → P → Scalar) :
    ∀ cs : List (SGNode P), calc_maxdistList dist cs = cs.map (calc_maxdist dist) := by
  intro cs
  induction cs with
  | nil => simp [calc_maxdistList]
  | cons c cs ih => simp [calc_maxdistList, ih]

theorem mem_descList {m : SGNode P} :
    ∀ {cs : List (SGNode P)}, m ∈ descList cs ↔ ∃ c ∈ cs, m ∈ c.allNodes := by
  intro cs
  induction cs with
  | nil => simp [descList]
  | cons c cs ih =>
    simp only [descList, List.mem_cons, List.mem_append, ih, SGNode.allNodes]
    constructor
    · rintro (h | h | ⟨c', hc', hm⟩)
      · exact ⟨c, Or.inl rfl, Or.inl h⟩
      · exact ⟨c, Or.inl rfl, Or.inr h⟩
      · exact ⟨c', Or.inr hc', hm⟩
    · rintro ⟨c', hc' | hc', hm⟩
      · subst hc'
        rcases hm with h | h
        · exact Or.inl h
        · exact Or.inr (Or.inl h)
      · exact Or.inr (Or.inr ⟨c', hc', hm⟩)

theorem calc_recurrence (dist : P → P → Scalar) (n : SGNode P) :
    (calc_maxdist dist n).maxdistUB =
      (((calc_maxdist dist n).children).map
        (fun c => dist (calc_maxdist dist n).point c.point + c.maxdistUB)).foldr
        max 0 := by
  cases n with
  | mk pt lvl ub i u cs =>
    simp [calc_maxdist, SGNode.maxdistUB, SGNode.children, SGNode.point]

theorem calc_bound_aux (dist : P → P → Scalar)
    (htri : ∀ a b c : P, dist a c ≤ dist a b + dist b c) :
    ∀ (k : ℕ) (n : SGNode P), sizeOf n ≤ k →
      ∀ m ∈ (calc_maxdist dist n).allNodes,
        ∀ d ∈ m.descendants, dist m.point d.point ≤ m.maxdistUB := by
  intro k
  induction k with
  | zero =>
    intro n hn
    cases n with
    | mk pt lvl ub i u cs => simp [SGNode.mk.sizeOf_spec] at hn
  | succ k ih =>
    intro n hn m hm d hd
    cases n with
    | mk pt lvl ub i u cs =>
      have hsz : ∀ c ∈ cs, sizeOf c ≤ k := by
        intro c hc
        have h1 := List.sizeOf_lt_of_mem hc
        simp only [SGNode.mk.sizeOf_spec] at hn
        omega
      have hmm : m = calc_maxdist dist (SGNode.mk pt lvl ub i u cs) ∨
          m ∈ descList (calc_maxdistList dist cs) := by
        rcases List.mem_cons.mp hm with h | h
        · exact Or.inl h
        · refine Or.inr ?_
          have : (calc_maxdist dist (SGNode.mk pt lvl ub i u cs)).descendants =
              descList (calc_maxdistList dist cs) := by
            simp [calc_maxdist, SGNode.descendants]
          rwa [this] at h
      rcases hmm with hm' | hm'
      · -- m is the recomputed root
        subst hm'
        have hdesc : (calc_maxdist dist (SGNode.mk pt lvl ub i u cs)).descendants =
            descList (calc_maxdistList dist cs) := by
          simp [calc_maxdist, SGNode.descendants]
        rw [hdesc] at hd
        rw [calc_maxdistList_eq_map] at hd
        rcases mem_descList.mp hd with ⟨c', hc', hdc⟩
        rcases List.mem_map.mp hc' with ⟨c, hc, rfl⟩
        have hpt : (calc_maxdist dist (SGNode.mk pt lvl ub i u cs)).point = pt := by
          simp [calc_maxdist, SGNode.point]
        have hub : (calc_maxdist dist (SGNode.mk pt lvl ub i u cs)).maxdistUB =
            (((calc_maxdistList dist cs).map
              (fun c => dist pt c.point + c.maxdistUB)).foldr max 0) := by
          simp [calc_maxdist, SGNode.maxdistUB]
        have hmem : dist pt (calc_maxdist dist c).point +
            (calc_maxdist dist c).maxdistUB ∈
            ((calc_maxdistList dist cs).map
              (fun c => dist pt c.point + c.maxdistUB)) := by
          rw [calc_maxdistList_eq_map]
          exact List.mem_map.mpr ⟨calc_maxdist dist c, List.mem_map.mpr ⟨c, hc, rfl⟩, rfl⟩
        have hle : dist pt (calc_maxdist dist c).point +
            (calc_maxdist dist c).maxdistUB ≤
            (calc_maxdist dist (SGNode.mk pt lvl ub i u cs)).maxdistUB := by
          rw [hub]; exact le_foldr_max hmem
        rw [hpt]
        simp only [SGNode.allNodes, List.mem_cons] at hdc
        rcases hdc with hdc | hdc
        · -- d is the recomputed child itself
          subst hdc
          refine le_trans ?_ hle
          exact le_add_of_nonneg_right (calcUB_nonneg dist c)
        · -- d is deeper: triangle through c
          have hc_all : calc_maxdist dist c ∈ (calc_maxdist dist c).allNodes := by
            simp [SGNode.allNodes]
          have hrec := ih c (hsz c hc) (calc_maxdist dist c) hc_all d hdc
          have htr := htri pt (calc_maxdist dist c).point d.point
          refine le_trans htr (le_trans ?_ hle)
          exact add_le_add_left hrec _
      · -- m is a node of a recomputed child subtree
        rw [calc_maxdistList_eq_map] at hm'
        rcases mem_descList.mp hm' with ⟨c', hc', hmc⟩
        rcases List.mem_map.mp hc' with ⟨c, hc, rfl⟩
        exact ih c (hsz c hc) m hmc d hd

theorem mem_allNodes_calc_aux (dist : P → P → Scalar) :
    ∀ (k : ℕ) (n : SGNode P), sizeOf n ≤ k →
      ∀ m ∈ (calc_maxdist dist n).allNodes,
        ∃ n0 : SGNode P, m = calc_maxdist dist n0 := by
  intro k
  induction k with
  | zero =>
    intro n hn
    cases n with
    | mk pt lvl ub i u cs => simp [SGNode.mk.sizeOf_spec] at hn
  | succ k ih =>
    intro n hn m hm
    cases n with
    | mk pt lvl ub i u cs =>
      have hsz : ∀ c ∈ cs, sizeOf c ≤ k := by
        intro c hc
        have h1 := List.sizeOf_lt_of_mem hc
        simp only [SGNode.mk.sizeOf_spec] at hn
        omega
      rcases List.mem_cons.mp hm with h | h
      · exact ⟨SGNode.mk pt lvl ub i u cs, h⟩
      · have hdesc : (calc_maxdist dist (SGNode.mk pt lvl ub i u cs)).descendants =
            descList (calc_maxdistList dist cs) := by
          simp [calc_maxdist, SGNode.descendants]
        rw [hdesc, calc_maxdistList_eq_map] at h
        rcases mem_descList.mp h with ⟨c', hc', hmc⟩
        rcases List.mem_map.mp hc' with ⟨c, hc, rfl⟩
        exact ih c (hsz c hc) m hmc

/-- Claim C3 (amended): after `calc_maxdist`, every node `m` of the resulting
tree satisfies the post-order recurrence `maxdistUB = max over children c of
(dist(m, c) + c.maxdistUB)` (0 for leaves), and this value is an upper bound
on — but not in general equal to — the distance from `m` to any of its
descendants. -/
theorem calc_maxdist_spec (dist : P → P → Scalar)
    (htri : ∀ a b c : P, dist a c ≤ dist a b + dist b c) (n : SGNode P) :
    ∀ m ∈ (calc_maxdist dist n).allNodes,
      (m.maxdistUB =
        ((m.children).map
          (fun c => dist m.point c.point + c.maxdistUB)).foldr max 0) ∧
      ∀ d ∈ m.descendants, dist m.point d.point ≤ m.maxdistUB := by
  intro m hm
  constructor
  · rcases mem_allNodes_calc_aux dist (sizeOf n) n le_rfl m hm with ⟨n0, rfl⟩
    exact calc_recurrence dist n0
  · intro d hd
    exact calc_bound_aux dist htri (sizeOf n) n le_rfl m hm d hd

/-- Witness for C3 on a concrete two-node tree under the 1-D metric. -/
theorem calc_maxdist_spec_witness :
    (∀ a b c : ℚ, ratDist a c ≤ ratDist a b + ratDist b c) ∧
    (∀ m ∈ (calc_maxdist ratDist
        (SGNode.mk (0 : ℚ) 1 0 0 0 [SGNode.mk 3 0 0 0 1 []])).allNodes,
      (m.maxdistUB =
        ((m.children).map
          (fun c => ratDist m.point c.point + c.maxdistUB)).foldr max 0) ∧
      ∀ d ∈ m.descendants, ratDist m.point d.point ≤ m.maxdistUB) :=
  ⟨fun a b c => abs_sub_le a b c,
   calc_maxdist_spec ratDist (fun a b c => abs_sub_le a b c) _⟩

/-- Claim C3 counterexample: on the 1-D tree `0 → 3 → 1` (root at level 2),
`calc_maxdist` sets the root's `maxdistUB` to `dist(0,3) + dist(3,1) = 5`,
while the true maximum distance from the root to a descendant is
`max(|0-3|, |0-1|) = 3`: the recurrence propagates path sums, an upper bound
that is not the claimed exact maximum. -/
theorem calc_maxdist_counterexample :
    ¬ ((calc_maxdist ratDist
        (SGNode.mk (0 : ℚ) 2 0 0 0
          [SGNode.mk 3 1 0 0 1 [SGNode.mk 1 0 0 0 2 []]])).maxdistUB =
      (((calc_maxdist ratDist
        (SGNode.mk (0 : ℚ) 2 0 0 0
          [SGNode.mk 3 1 0 0 1 [SGNode.mk 1 0 0 0 2 []]])).descendants).map
        (fun d =>
          ratDist (calc_maxdist ratDist
            (SGNode.mk (0 : ℚ) 2 0 0 0
              [SGNode.mk 3 1 0 0 1 [SGNode.mk 1 0 0 0 2 []]])).point
            d.point)).foldr max 0) := by
  simp [calc_maxdist, calc_maxdistList, SGNode.descendants, descList,
    SGNode.point, SGNode.maxdistUB, ratDist]
  norm_num

/-- Claim C4 counterexample: `setChild` appends a child without updating the
parent's `maxdistUB`; starting from the single fresh node `0` (bound 0) and
adding the point `5`, the parent has a descendant at distance `5 > 0`, so the
claimed always-holding invariant fails right after the operation. -/
theorem maxdistUB_invariant_counterexample :
    ¬ (∀ d ∈ (((SGNode.mk (0 : ℚ) 0 0 0 0 []).addChild 5 1).1).descendants,
        ratDist (((SGNode.mk (0 : ℚ) 0 0 0 0 []).addChild 5 1).1).point d.point ≤
          (((SGNode.mk (0 : ℚ) 0 0 0 0 []).addChild 5 1).1).maxdistUB) := by
  simp [SGNode.addChild, SGNode.setChild, SGNode.descendants, descList,
    SGNode.point, SGNode.maxdistUB, ratDist]

/-- Claim C4 (amended): a node freshly created by `setChild` has
`maxdistUB = 0` and an empty descendant set (so the bound holds for it
trivially), and `calc_maxdist` (re-)establishes
`maxdistUB ≥ max over descendants d of dist(m, d)` for every node of the tree
it returns; but `setChild` does not update the bounds of the ancestors of the
new node, so the invariant does not hold at all times between an insertion and
the next `calc_maxdist` (see the counterexample). -/
theorem maxdistUB_conservative (dist : P → P → Scalar)
    (htri : ∀ a b c : P, dist a c ≤ dist a b + dist b c) :
    (∀ (n : SGNode P) (pIns : P) (uid : ℕ) (i : ℤ),
      ((n.setChild pIns uid i).2).maxdistUB = 0 ∧
      ((n.setChild pIns uid i).2).descendants = []) ∧
    (∀ n : SGNode P, ∀ m ∈ (calc_maxdist dist n).allNodes,
      ∀ d ∈ m.descendants, dist m.point d.point ≤ m.maxdistUB) := by
  constructor
  · intro n pIns uid i
    cases n with
    | mk pt lvl ub i0 u cs =>
      constructor
      · simp [SGNode.setChild, SGNode.maxdistUB]
      · simp [SGNode.setChild, SGNode.descendants, descList]
  · intro n m hm d hd
    exact calc_bound_aux dist htri (sizeOf n) n le_rfl m hm d hd

/-- Witness for C4 under the 1-D metric. -/
theorem maxdistUB_conservative_witness :
    (∀ a b c : ℚ, ratDist a c ≤ ratDist a b + ratDist b c) ∧
    ((∀ (n : SGNode ℚ) (pIns : ℚ) (uid : ℕ) (i : ℤ),
      ((n.setChild pIns uid i).2).maxdistUB = 0 ∧
      ((n.setChild pIns uid i).2).descendants = []) ∧
    (∀ n : SGNode ℚ, ∀ m ∈ (calc_maxdist ratDist n).allNodes,
      ∀ d ∈ m.descendants, ratDist m.point d.point ≤ m.maxdistUB)) :=
  ⟨fun a b c => abs_sub_le a b c,
   maxdistUB_conservative ratDist (fun a b c => abs_sub_le a b c)⟩

theorem insert_descent_aux (base : Scalar) (dist : P → P → Scalar) (p : P) (uid : ℕ) :
    ∀ k : ℕ,
      (∀ n : SGNode P, sizeOf n ≤ k → ∀ d : Scalar,
        (zeroHitNode base dist p n d = true →
          insertAt base dist p uid n d = (n, none)) ∧
        (zeroHitNode base dist p n d = false →
          ∃ lvl, (insertAt base dist p uid n d).2 = some lvl)) ∧
      (∀ cs : List (SGNode P), sizeOf cs ≤ k → ∀ lvl : ℤ,
        (zeroHitChildren base dist p lvl cs = true →
          insertChildren base dist p uid lvl cs = some (cs, none)) ∧
        (zeroHitChildren base dist p lvl cs = false →
          insertChildren base dist p uid lvl cs = none ∨
          ∃ cs' l, insertChildren base dist p uid lvl cs = some (cs', some l))) := by
  intro k
  induction k with
  | zero =>
    constructor
    · intro n hn
      cases n with
      | mk pt lvl ub i u cs => simp [SGNode.mk.sizeOf_spec] at hn
    · intro cs hcs
      cases cs with
      | nil => simp at hcs
      | cons c cs => simp [List.cons.sizeOf_spec] at hcs
  | succ k ih =>
    obtain ⟨ihN, ihL⟩ := ih
    constructor
    · intro n hn d
      cases n with
      | mk pt lvl ub i u cs =>
        have hcs : sizeOf cs ≤ k := by
          simp only [SGNode.mk.sizeOf_spec] at hn; omega
        rw [zeroHitNode, insertAt]
        by_cases hd : d = 0
        · simp [hd]
        · simp only [if_neg hd]
          obtain ⟨hLt, hLf⟩ := ihL cs hcs lvl
          constructor
          · intro hz
            rw [hLt hz]
          · intro hz
            rcases hLf hz with hnone | ⟨cs', l, hsome⟩
            · rw [hnone]
              exact ⟨lvl - 1, rfl⟩
            · rw [hsome]
              exact ⟨l, rfl⟩
    · intro cs hcs lvl
      cases cs with
      | nil =>
        rw [zeroHitChildren, insertChildren]
        constructor
        · intro h; simp at h
        · intro _; exact Or.inl rfl
      | cons c cs =>
        have hc : sizeOf c ≤ k := by
          simp only [List.cons.sizeOf_spec] at hcs; omega
        have hcs' : sizeOf cs ≤ k := by
          simp only [List.cons.sizeOf_spec] at hcs; omega
        rw [zeroHitChildren, insertChildren]
        by_cases hcand : dist c.point p ≤ powdict base (lvl - 1 + 1024)
        · simp only [if_pos hcand]
          obtain ⟨hNt, hNf⟩ := ihN c hc (dist c.point p)
          constructor
          · intro hz
            simp [hNt hz]
          · intro hz
            rcases hNf hz with ⟨l, hl⟩
            exact Or.inr
              ⟨(insertAt base dist p uid c (dist c.point p)).1 :: cs, l, by rw [hl]⟩
        · simp only [if_neg hcand]
          obtain ⟨hLt, hLf⟩ := ihL cs hcs' lvl
          constructor
          · intro hz
            rw [hLt hz]
          · intro hz
            rcases hLf hz with hnone | ⟨cs', l, hsome⟩
            · rw [hnone]; exact Or.inl rfl
            · rw [hsome]; exact Or.inr ⟨c :: cs', l, rfl⟩

theorem SGNode.point_mk (pt : P) (lvl : ℤ) (ub : Scalar) (i u : ℕ)
    (cs : List (SGNode P)) : (SGNode.mk pt lvl ub i u cs).point = pt := rfl

theorem SGNode.level_mk (pt : P) (lvl : ℤ) (ub : Scalar) (i u : ℕ)
    (cs : List (SGNode P)) : (SGNode.mk pt lvl ub i u cs).level = lvl := rfl

theorem SGNode.children_mk (pt : P) (lvl : ℤ) (ub : Scalar) (i u : ℕ)
    (cs : List (SGNode P)) : (SGNode.mk pt lvl ub i u cs).children = cs := rfl

theorem promoteChain_point (r : SGNode P) : ∀ k : ℕ, (promoteChain r k).point = r.point := by
  intro k
  induction k with
  | zero => rfl
  | succ k ih =>
    simp only [promoteChain, SGNode.point_mk]
    exact ih

theorem promoteChain_level (r : SGNode P) :
    ∀ k : ℕ, (promoteChain r k).level = r.level + k := by
  intro k
  induction k with
  | zero => simp [promoteChain]
  | succ k ih =>
    simp only [promoteChain, SGNode.level_mk, ih]
    push_cast
    ring

theorem promoteLoop_first (base d0 : Scalar) (lvl : ℤ) (fuel : ℕ)
    (h : promoteLoop base d0 lvl fuel ≠ 0) : ¬ d0 ≤ powdict base (lvl + 1024) := by
  cases fuel with
  | zero => simp [promoteLoop] at h
  | succ f =>
    intro hle
    rw [promoteLoop, if_pos hle] at h
    exact h rfl

theorem promoteLoop_last (base d0 : Scalar) :
    ∀ (fuel : ℕ) (lvl : ℤ), promoteLoop base d0 lvl fuel ≠ 0 →
      ¬ d0 ≤ powdict base
        (lvl + (promoteLoop base d0 lvl fuel : ℤ) - 1 + 1024) := by
  intro fuel
  induction fuel with
  | zero => intro lvl h; simp [promoteLoop] at h
  | succ f ih =>
    intro lvl h
    by_cases hle : d0 ≤ powdict base (lvl + 1024)
    · rw [promoteLoop, if_pos hle] at h
      exact absurd rfl h
    · rw [promoteLoop, if_neg hle] at h ⊢
      by_cases h2 : promoteLoop base d0 (lvl + 1) f = 0
      · rw [h2]
        have hidx : lvl + ((0 + 1 : ℕ) : ℤ) - 1 + 1024 = lvl + 1024 := by
          push_cast; ring
        rw [hidx]
        exact hle
      · have hrec := ih (lvl + 1) h2
        have hidx : lvl + ((promoteLoop base d0 (lvl + 1) f + 1 : ℕ) : ℤ) - 1 + 1024 =
            lvl + 1 + (promoteLoop base d0 (lvl + 1) f : ℤ) - 1 + 1024 := by
          push_cast; ring
        rw [hidx]
        exact hrec

/-- Claim C5: with `base > 1`, if a node at distance exactly zero from `p` is
encountered during the insertion descent, `insert(p, UID)` returns `false` and
leaves the tree unchanged (no node added, `N` unchanged); otherwise it returns
`true`. -/
theorem insert_duplicate (dist : P → P → Scalar) (t : SGTree P) (p : P)
    (uid : ℕ) (hb : 1 < t.base) :
    (t.zeroHit dist p = true → t.insert dist p uid = (t, false)) ∧
    (t.zeroHit dist p = false → (t.insert dist p uid).2 = true) := by
  obtain ⟨root, base, mins, maxs, N⟩ := t
  have hb' : (1 : ℚ) < base := hb
  have hb0 : (0 : ℚ) < base := lt_trans zero_lt_one hb'
  cases root with
  | none =>
    constructor
    · intro h
      simp [SGTree.zeroHit] at h
    · intro _
      simp [SGTree.insert]
  | some r =>
    have hz : SGTree.zeroHit dist ⟨some r, base, mins, maxs, N⟩ p =
        zeroHitNode base dist p
          (promoteChain r (promoteLoop base (dist r.point p) r.level
            (promoteFuel base (dist r.point p) r.level))) (dist r.point p) := rfl
    constructor
    · intro h
      rw [hz] at h
      have hcnt0 : promoteLoop base (dist r.point p) r.level
          (promoteFuel base (dist r.point p) r.level) = 0 := by
        by_contra hne
        have hfirst := promoteLoop_first base (dist r.point p) r.level _ hne
        have hpos : (0 : ℚ) < powdict base (r.level + 1024) := by
          unfold powdict
          exact zpow_pos hb0 _
        have hd0ne : dist r.point p ≠ 0 := by
          intro h0
          exact hfirst (by rw [h0]; exact le_of_lt hpos)
        obtain ⟨m, hm⟩ : ∃ m, promoteLoop base (dist r.point p) r.level
            (promoteFuel base (dist r.point p) r.level) = m + 1 :=
          ⟨promoteLoop base (dist r.point p) r.level
            (promoteFuel base (dist r.point p) r.level) - 1, by omega⟩
        have hlast := promoteLoop_last base (dist r.point p)
          (promoteFuel base (dist r.point p) r.level) r.level hne
        rw [hm] at h hlast
        have hchain : promoteChain r (m + 1) =
            SGNode.mk (promoteChain r m).point ((promoteChain r m).level + 1) 0
              (toUnsigned (-1)) (promoteChain r m).UID [promoteChain r m] := by
          simp [promoteChain]
        rw [hchain, zeroHitNode, if_neg hd0ne, zeroHitChildren] at h
        have hcand : ¬ dist (promoteChain r m).point p ≤
            powdict base ((promoteChain r m).level + 1 - 1 + 1024) := by
          rw [promoteChain_point, promoteChain_level]
          have hidx : r.level + (m : ℤ) + 1 - 1 + 1024 =
              r.level + ((m + 1 : ℕ) : ℤ) - 1 + 1024 := by
            push_cast; ring
          rw [hidx]
          exact hlast
        rw [if_neg hcand, zeroHitChildren] at h
        simp at h
      rw [hcnt0] at h
      have hch0 : promoteChain r 0 = r := rfl
      rw [hch0] at h
      have hIA := ((insert_descent_aux base dist p uid (sizeOf r)).1 r le_rfl
        (dist r.point p)).1 h
      show SGTree.insert dist ⟨some r, base, mins, maxs, N⟩ p uid = _
      simp only [SGTree.insert]
      rw [hcnt0, hch0, hIA]
      simp
    · intro h
      rw [hz] at h
      obtain ⟨lvl, hl⟩ := ((insert_descent_aux base dist p uid
        (sizeOf (promoteChain r (promoteLoop base (dist r.point p) r.level
          (promoteFuel base (dist r.point p) r.level))))).1 _ le_rfl _).2 h
      have hpair : insertAt base dist p uid
          (promoteChain r (promoteLoop base (dist r.point p) r.level
            (promoteFuel base (dist r.point p) r.level))) (dist r.point p) =
          ((insertAt base dist p uid
            (promoteChain r (promoteLoop base (dist r.point p) r.level
              (promoteFuel base (dist r.point p) r.level))) (dist r.point p)).1,
            some lvl) := by
        rw [← hl]
      simp only [SGTree.insert]
      rw [hpair]

/-- Concrete evaluation: the descent for the root's own point hits distance
zero immediately. -/
theorem zeroHit_concrete :
    SGTree.zeroHit ratDist
      (⟨some (SGNode.mk (0 : ℚ) 0 0 0 0 []), 2, 0, 0, 1⟩ : SGTree ℚ) 0 = true := by
  have hz : SGTree.zeroHit ratDist
      (⟨some (SGNode.mk (0 : ℚ) 0 0 0 0 []), 2, 0, 0, 1⟩ : SGTree ℚ) 0 =
      zeroHitNode 2 ratDist 0
        (promoteChain (SGNode.mk (0 : ℚ) 0 0 0 0 [])
          (promoteLoop 2 (ratDist (SGNode.mk (0 : ℚ) 0 0 0 0 []).point 0)
            (SGNode.mk (0 : ℚ) 0 0 0 0 []).level
            (promoteFuel 2 (ratDist (SGNode.mk (0 : ℚ) 0 0 0 0 []).point 0)
              (SGNode.mk (0 : ℚ) 0 0 0 0 []).level)))
        (ratDist (SGNode.mk (0 : ℚ) 0 0 0 0 []).point 0) := rfl
  rw [hz]
  have hd0 : ratDist (SGNode.mk (0 : ℚ) 0 0 0 0 []).point 0 = 0 := by
    simp [ratDist, SGNode.point_mk]
  rw [hd0]
  have hfuel : promoteFuel 2 (0 : ℚ) (SGNode.mk (0 : ℚ) 0 0 0 0 []).level = 2 := by
    norm_num [promoteFuel, SGNode.level_mk]
    decide
  rw [hfuel]
  have hloop : promoteLoop 2 0 (SGNode.mk (0 : ℚ) 0 0 0 0 []).level 2 = 0 := by
    have h2 : (2 : ℕ) = 1 + 1 := rfl
    rw [h2, promoteLoop]
    norm_num [powdict, SGNode.level_mk]
  rw [hloop]
  rw [show promoteChain (SGNode.mk (0 : ℚ) 0 0 0 0 []) 0 =
    SGNode.mk (0 : ℚ) 0 0 0 0 [] from rfl]
  rw [zeroHitNode]
  norm_num

/-- Witness for C5: inserting the root's own point into a one-node tree with
`base = 2` is detected as a duplicate and changes nothing. -/
theorem insert_duplicate_witness :
    (1 : ℚ) <
      ((⟨some (SGNode.mk (0 : ℚ) 0 0 0 0 []), 2, 0, 0, 1⟩ : SGTree ℚ)).base ∧
    SGTree.zeroHit ratDist
      (⟨some (SGNode.mk (0 : ℚ) 0 0 0 0 []), 2, 0, 0, 1⟩ : SGTree ℚ) 0 = true ∧
    SGTree.insert ratDist
      (⟨some (SGNode.mk (0 : ℚ) 0 0 0 0 []), 2, 0, 0, 1⟩ : SGTree ℚ) 0 7 =
      ((⟨some (SGNode.mk (0 : ℚ) 0 0 0 0 []), 2, 0, 0, 1⟩ : SGTree ℚ), false) :=
  ⟨by norm_num, zeroHit_concrete,
   (insert_duplicate ratDist _ 0 7 (by norm_num)).1 zeroHit_concrete⟩

theorem insertB_take {α : Type} (x : α × Scalar) :
    ∀ (l : List (α × Scalar)) (k : ℕ),
      (insertB x (l.take k)).take k = (insertB x l).take k := by
  intro l
  induction l with
  | nil => intro k; simp
  | cons y ys ih =>
    intro k
    cases k with
    | zero => simp
    | succ k =>
      rw [List.take_succ_cons]
      by_cases hx : x.2 < y.2
      · simp only [insertB, if_pos hx]
        rw [List.take_succ_cons, List.take_succ_cons]
        congr 1
        rw [show y :: ys.take k = (y :: ys).take (k + 1) from rfl]
        rw [List.take_take]
        congr 1
        omega
      · simp only [insertB, if_neg hx]
        rw [List.take_succ_cons, List.take_succ_cons]
        congr 1
        exact ih k

theorem knnFold_take_le {α : Type} (k1 k2 : ℕ) (hk : k1 ≤ k2) :
    ∀ (xs acc : List (α × Scalar)),
      xs.foldl (fun acc x => (insertB x acc).take k1) (acc.take k1) =
        (xs.foldl (fun acc x => (insertB x acc).take k2) acc).take k1 := by
  intro xs
  induction xs with
  | nil => intro acc; rfl
  | cons x xs ih =>
    intro acc
    simp only [List.foldl_cons]
    have h1 : (insertB x (acc.take k1)).take k1 =
        ((insertB x acc).take k2).take k1 := by
      rw [insertB_take, List.take_take, min_eq_left hk]
    rw [h1]
    exact ih ((insertB x acc).take k2)

theorem knnFold_prefix {α : Type} (k1 k2 : ℕ) (hk : k1 ≤ k2)
    (xs : List (α × Scalar)) : knnFold k1 xs = (knnFold k2 xs).take k1 := by
  have h := knnFold_take_le k1 k2 hk xs []
  simpa [knnFold] using h

theorem mem_insertB {α : Type} (x z : α × Scalar) :
    ∀ l : List (α × Scalar), z ∈ insertB x l ↔ z = x ∨ z ∈ l := by
  intro l
  induction l with
  | nil => simp [insertB]
  | cons y ys ih =>
    by_cases hx : x.2 < y.2
    · simp only [insertB, if_pos hx, List.mem_cons]
    · simp only [insertB, if_neg hx, List.mem_cons, ih]
      tauto

theorem insertB_pairwise {α : Type} (x : α × Scalar) :
    ∀ l : List (α × Scalar),
      l.Pairwise (fun a b => a.2 ≤ b.2) →
      (insertB x l).Pairwise (fun a b => a.2 ≤ b.2) := by
  intro l
  induction l with
  | nil => intro _; simp [insertB]
  | cons y ys ih =>
    intro hp
    rcases List.pairwise_cons.mp hp with ⟨hy, hys⟩
    by_cases hx : x.2 < y.2
    · simp only [insertB, if_pos hx]
      refine List.pairwise_cons.mpr ⟨?_, hp⟩
      intro z hz
      rcases List.mem_cons.mp hz with rfl | hz
      · exact le_of_lt hx
      · exact le_trans (le_of_lt hx) (hy z hz)
    · simp only [insertB, if_neg hx]
      refine List.pairwise_cons.mpr ⟨?_, ih hys⟩
      intro z hz
      rcases (mem_insertB x z ys).mp hz with rfl | hz
      · exact not_lt.mp hx
      · exact hy z hz

theorem knnFold_pairwise {α : Type} (k : ℕ) :
    ∀ (xs acc : List (α × Scalar)),
      acc.Pairwise (fun a b => a.2 ≤ b.2) →
      (xs.foldl (fun acc x => (insertB x acc).take k) acc).Pairwise
        (fun a b => a.2 ≤ b.2) := by
  intro xs
  induction xs with
  | nil => intro acc h; exact h
  | cons x xs ih =>
    intro acc h
    simp only [List.foldl_cons]
    refine ih _ ?_
    exact ((insertB_pairwise x acc h).sublist (List.take_sublist _ _))

/-- Claim C9: for `k1 < k2` on the same tree, `kNearestNeighbours(p, k1)` is a
prefix of `kNearestNeighbours(p, k2)` under the ascending-by-distance result
order with stable tie-break, and every result list is sorted ascending by
distance. -/
theorem kNearestNeighbours_spec (dist : P → P → Scalar) (t : SGTree P) (p : P)
    (k1 k2 : ℕ) (h : k1 < k2) :
    (t.kNearestNeighbours dist p k1) <+: (t.kNearestNeighbours dist p k2) ∧
    (∀ k : ℕ, (t.kNearestNeighbours dist p k).Pairwise
      (fun a b => a.2 ≤ b.2)) := by
  obtain ⟨root, base, mins, maxs, N⟩ := t
  constructor
  · cases root with
    | none => exact ⟨[], rfl⟩
    | some r =>
      have heq : SGTree.kNearestNeighbours dist
          ⟨some r, base, mins, maxs, N⟩ p k1 =
          (SGTree.kNearestNeighbours dist
            ⟨some r, base, mins, maxs, N⟩ p k2).take k1 := by
        show knnFold k1 ((r.allNodes).map (fun n => (n, dist n.point p))) =
          (knnFold k2 ((r.allNodes).map (fun n => (n, dist n.point p)))).take k1
        exact knnFold_prefix k1 k2 (le_of_lt h) _
      rw [heq]
      exact ⟨(SGTree.kNearestNeighbours dist
        ⟨some r, base, mins, maxs, N⟩ p k2).drop k1, List.take_append_drop _ _⟩
  · intro k
    cases root with
    | none =>
      show (([] : List (SGNode P × Scalar))).Pairwise (fun a b => a.2 ≤ b.2)
      simp
    | some r =>
      show (knnFold k ((r.allNodes).map (fun n => (n, dist n.point p)))).Pairwise
        (fun a b => a.2 ≤ b.2)
      exact knnFold_pairwise k _ [] (by simp)

/-- Witness for C9 on a concrete one-node tree with `k1 = 1 < k2 = 2`. -/
theorem kNearestNeighbours_spec_witness :
    (1 : ℕ) < 2 ∧
    ((SGTree.kNearestNeighbours ratDist
        (⟨some (SGNode.mk (0 : ℚ) 0 0 0 0 []), 2, 0, 0, 1⟩ : SGTree ℚ) 3 1) <+:
      (SGTree.kNearestNeighbours ratDist
        (⟨some (SGNode.mk (0 : ℚ) 0 0 0 0 []), 2, 0, 0, 1⟩ : SGTree ℚ) 3 2) ∧
    (∀ k : ℕ, (SGTree.kNearestNeighbours ratDist
        (⟨some (SGNode.mk (0 : ℚ) 0 0 0 0 []), 2, 0, 0, 1⟩ : SGTree ℚ) 3 k).Pairwise
      (fun a b => a.2 ≤ b.2))) :=
  ⟨by decide,
   kNearestNeighbours_spec ratDist
     (⟨some (SGNode.mk (0 : ℚ) 0 0 0 0 []), 2, 0, 0, 1⟩ : SGTree ℚ) 3 1 2
     (by decide)⟩
